import Mathlib

/-
Verification of the Zcash relay helper scripts (block-header hashing,
Merkle inclusion proofs, PoW decoding, verification-id packing).

Shallow embedding conventions:
  * Python `bytes` values are modeled as `List Nat` with every element < 256
    (stated as a hypothesis where a theorem needs it).
  * Python `str` hex strings are modeled as `List Char` (or `String` where the
    source compares/concatenates strings).
  * Fallible Python code (raised exceptions) is modeled with `Except String`
    or `Option`; the error strings follow the source's messages.
  * Unbounded Python integers are `Nat`, except where the source computation
    passes through negative values (`calculate_pow`), which uses `Int` with
    `Int.fdiv` (Python's floor division `//`).
-/

namespace ZcashRelay

/-! ### Byte helpers -/

/-- Little-endian encoding of `value` into `width` bytes.
Models `struct.pack` with format characters such as I and the
`int.to_bytes(width, "little")` call; for in-range values (the only values
the scripts produce) the byte list agrees with CPython. -/
def packLE (width value : Nat) : List Nat :=
  (List.range width).map (fun i => value / 256 ^ i % 256)

/-- Big-endian encoding of `value` into `width` bytes (used by SHA-256
message length padding and word serialization). -/
def packBE (width value : Nat) : List Nat :=
  (List.range width).map (fun i => value / 256 ^ (width - 1 - i) % 256)

/-- Big-endian value of a byte list (how 4-byte chunks are read as u32). -/
def beWord (bs : List Nat) : Nat :=
  bs.foldl (fun a b => 256 * a + b) 0

/-- The sixteen lowercase hex digit characters. -/
def hexDigits : List Char :=
  ['0', '1', '2', '3', '4', '5', '6', '7'] ++
  ['8', '9', 'a', 'b', 'c', 'd', 'e', 'f']

/-- Hex digit character for a value < 16 (as produced by Python `bytes.hex`
and format specifier x). -/
def hexDigitChar (n : Nat) : Char := hexDigits.getD n '0'

/-- Models Python `bytes.hex()`: two lowercase hex chars per byte. -/
def hexEncode (bs : List Nat) : List Char :=
  bs.flatMap (fun b => [hexDigitChar (b / 16), hexDigitChar (b % 16)])

/-- Value of one hex digit character, `none` for a non-hex character.
Accepts the same digit characters as CPython (0-9, a-f, A-F). -/
def hexVal (c : Char) : Option Nat :=
  if '0' ≤ c ∧ c ≤ '9' then some (c.toNat - 48)
  else if 'a' ≤ c ∧ c ≤ 'f' then some (c.toNat - 87)
  else if 'A' ≤ c ∧ c ≤ 'F' then some (c.toNat - 55)
  else none

/-- Models Python `bytes.fromhex` on pure hex input: pairs of hex digits,
failing on an odd-length string or a non-hex character.  (CPython also skips
ASCII spaces between pairs; the scripts only ever pass pure hex strings, so
that allowance is not modeled.) -/
def hexDecode : List Char → Option (List Nat)
  | [] => some []
  | [_] => none
  | c1 :: c2 :: rest => do
    let d1 ← hexVal c1
    let d2 ← hexVal c2
    let bs ← hexDecode rest
    pure ((16 * d1 + d2) :: bs)

/-- Models Python `int(chunk, 16)` on pure hex input: empty or non-hex input
fails, otherwise the big-endian hex value. -/
def parseHexNat (cs : List Char) : Option Nat :=
  if cs.isEmpty then none
  else cs.foldlM (fun acc c => (hexVal c).map (fun d => 16 * acc + d)) 0

/-! ### SHA-256 (hashlib.sha256), operating on byte lists -/

/-- The 64 SHA-256 round constants (FIPS 180-4, written in decimal). -/
def K256 : List Nat :=
  [1116352408, 1899447441, 3049323471, 3921009573, 961987163,
   1508970993, 2453635748, 2870763221, 3624381080, 310598401,
   607225278, 1426881987, 1925078388, 2162078206, 2614888103,
   3248222580, 3835390401, 4022224774, 264347078, 604807628,
   770255983, 1249150122, 1555081692, 1996064986, 2554220882,
   2821834349, 2952996808, 3210313671, 3336571891, 3584528711,
   113926993, 338241895, 666307205, 773529912, 1294757372,
   1396182291, 1695183700, 1986661051, 2177026350, 2456956037,
   2730485921, 2820302411, 3259730800, 3345764771, 3516065817,
   3600352804, 4094571909, 275423344, 430227734, 506948616,
   659060556, 883997877, 958139571, 1322822218, 1537002063,
   1747873779, 1955562222, 2024104815, 2227730452, 2361852424,
   2428436474, 2756734187, 3204031479, 3329325298]

/-- SHA-256 working state: the eight 32-bit words a..h. -/
abbrev Sha256State := Nat × Nat × Nat × Nat × Nat × Nat × Nat × Nat

/-- SHA-256 initial hash value (FIPS 180-4, written in decimal). -/
def sha256Init : Sha256State :=
  (1779033703, 3144134277, 1013904242, 2773480762,
   1359893119, 2600822924, 528734635, 1541459225)

/-- 32-bit right rotation. -/
def rotr32 (n x : Nat) : Nat := ((x >>> n) ||| (x <<< (32 - n))) % 2 ^ 32

def bsig0 (x : Nat) : Nat := rotr32 2 x ^^^ rotr32 13 x ^^^ rotr32 22 x

def bsig1 (x : Nat) : Nat := rotr32 6 x ^^^ rotr32 11 x ^^^ rotr32 25 x

def ssig0 (x : Nat) : Nat := rotr32 7 x ^^^ rotr32 18 x ^^^ (x >>> 3)

def ssig1 (x : Nat) : Nat := rotr32 17 x ^^^ rotr32 19 x ^^^ (x >>> 10)

def chFn (x y z : Nat) : Nat := (x &&& y) ^^^ ((x ^^^ (2 ^ 32 - 1)) &&& z)

def majFn (x y z : Nat) : Nat := (x &&& y) ^^^ (x &&& z) ^^^ (y &&& z)

/-- One SHA-256 compression round; `kw` is the pair of round constant and
message-schedule word. -/
def sha256Round (st : Sha256State) (kw : Nat × Nat) : Sha256State :=
  let (a, b, c, d, e, f, g, h) := st
  let t1 := (h + bsig1 e + chFn e f g + kw.1 + kw.2) % 2 ^ 32
  let t2 := (bsig0 a + majFn a b c) % 2 ^ 32
  ((t1 + t2) % 2 ^ 32, a, b, c, (d + t1) % 2 ^ 32, e, f, g)

/-- Extend a 16-word block by `k` further message-schedule words. -/
def sha256Schedule (ws : List Nat) : Nat → List Nat
  | 0 => ws
  | k + 1 =>
    let n := ws.length
    let w := (ssig1 (ws.getD (n - 2) 0) + ws.getD (n - 7) 0 +
              ssig0 (ws.getD (n - 15) 0) + ws.getD (n - 16) 0) % 2 ^ 32
    sha256Schedule (ws ++ [w]) k

/-- Compress one 16-word block into the running state. -/
def sha256Compress (st : Sha256State) (block : List Nat) : Sha256State :=
  let w := sha256Schedule block 48
  let fin := (K256.zip w).foldl sha256Round st
  let (a, b, c, d, e, f, g, h) := st
  let (a', b', c', d', e', f', g', h') := fin
  ((a + a') % 2 ^ 32, (b + b') % 2 ^ 32, (c + c') % 2 ^ 32, (d + d') % 2 ^ 32,
   (e + e') % 2 ^ 32, (f + f') % 2 ^ 32, (g + g') % 2 ^ 32, (h + h') % 2 ^ 32)

/-- SHA-256 message padding: 0x80, zeros, then the 64-bit big-endian bit
length, to a multiple of 64 bytes. -/
def sha256Pad (msg : List Nat) : List Nat :=
  let len := msg.length
  let k := (64 + 56 - (len + 1) % 64) % 64
  msg ++ [128] ++ List.replicate k 0 ++ packBE 8 (8 * len)

/-- Group a byte list into big-endian 32-bit words (four bytes each). -/
def bytesToWordsBE : List Nat → List Nat
  | b0 :: b1 :: b2 :: b3 :: rest =>
    (((b0 * 256 + b1) * 256 + b2) * 256 + b3) :: bytesToWordsBE rest
  | _ => []

/-- Split a word list into 16-word blocks. -/
def blocksOf16 (ws : List Nat) : List (List Nat) :=
  if h : ws = [] then [] else ws.take 16 :: blocksOf16 (ws.drop 16)
termination_by ws.length
decreasing_by
  simp only [List.length_drop]
  have : 0 < ws.length := List.length_pos.mpr h
  omega

/-- Serialize the final state as 32 digest bytes. -/
def sha256Digest (st : Sha256State) : List Nat :=
  let (a, b, c, d, e, f, g, h) := st
  packBE 4 a ++ packBE 4 b ++ packBE 4 c ++ packBE 4 d ++
  packBE 4 e ++ packBE 4 f ++ packBE 4 g ++ packBE 4 h

/-- SHA-256 of a byte list (models `hashlib.sha256(data).digest()`). -/
def sha256 (msg : List Nat) : List Nat :=
  sha256Digest ((blocksOf16 (bytesToWordsBE (sha256Pad msg))).foldl sha256Compress sha256Init)

/-! ### Merkle tree engine (scripts/merkle-proof.py) -/

/-- merkle-proof.py `double_sha256`: double SHA-256 used for the Merkle tree,
returning raw digest bytes. -/
def double_sha256 (data : List Nat) : List Nat := sha256 (sha256 data)

/-- The odd-count duplication step shared by `build_merkle_tree` and
`get_merkle_proof`: if the level has an odd number of nodes, append a copy of
the last node (`current_level.append(current_level[-1])`). -/
def dupIfOdd (l : List (List Nat)) : List (List Nat) :=
  if l.length % 2 = 1 then l ++ [l.getLastD []] else l

/-- The pair-hashing step of `build_merkle_tree`: hash consecutive pairs
`double_sha256(current_level[i] + current_level[i+1])`.  It is only applied
to even-length levels (after `dupIfOdd`). -/
def hashPairs : List (List Nat) → List (List Nat)
  | a :: b :: rest => double_sha256 (a ++ b) :: hashPairs rest
  | _ => []

theorem hashPairs_length (l : List (List Nat)) : (hashPairs l).length = l.length / 2 := by
  match l with
  | [] => rfl
  | [_] => simp [hashPairs]
  | a :: b :: rest =>
    simp only [hashPairs, List.length_cons]
    rw [hashPairs_length rest]
    omega

theorem dupIfOdd_length (l : List (List Nat)) :
    (dupIfOdd l).length = l.length + l.length % 2 := by
  unfold dupIfOdd
  split <;> simp <;> omega

theorem next_length_lt {l : List (List Nat)} (h : 1 < l.length) :
    (hashPairs (dupIfOdd l)).length < l.length := by
  rw [hashPairs_length, dupIfOdd_length]
  omega

/-- The `while len(current_level) > 1` loop of `build_merkle_tree`, returning
every level from the given one down to the single-node root level. -/
def buildLevels (l : List (List Nat)) : List (List (List Nat)) :=
  if h : 1 < l.length then l :: buildLevels (hashPairs (dupIfOdd l)) else [l]
termination_by l.length
decreasing_by exact next_length_lt h

/-- merkle-proof.py `build_merkle_tree`: returns `(root, levels)`.  The empty
input returns the all-zero digest and a single empty level; otherwise the
root is the single entry of the last level (`current_level[0]`).  The digest
fields of the header dictionaries are modeled as already-decoded byte
lists. -/
def build_merkle_tree (tx_hashes : List (List Nat)) : List Nat × List (List (List Nat)) :=
  if tx_hashes.isEmpty then (List.replicate 32 0, [[]])
  else
    ((buildLevels tx_hashes).getLastD [] |>.headD [], buildLevels tx_hashes)

/-- One iteration of the `for level in levels[:-1]` loop of
`get_merkle_proof`: duplicate the last node of an odd level, pick the sibling
index, append the sibling if in range, halve the index. -/
def proofStep (acc : List (List Nat) × Nat) (level : List (List Nat)) :
    List (List Nat) × Nat :=
  let level_copy := dupIfOdd level
  let sibling_idx := if acc.2 % 2 = 0 then acc.2 + 1 else acc.2 - 1
  (if sibling_idx < level_copy.length then acc.1 ++ [level_copy.getD sibling_idx []]
   else acc.1,
   acc.2 / 2)

/-- merkle-proof.py `get_merkle_proof`: builds the tree, then walks all
levels except the root level collecting sibling digests; returns
`(branch, root)`. -/
def get_merkle_proof (tx_hashes : List (List Nat)) (tx_index : Nat) :
    List (List Nat) × List Nat :=
  let rl := build_merkle_tree tx_hashes
  (((rl.2.dropLast).foldl proofStep ([], tx_index)).1, rl.1)

/-- Modelled from the spec: the `verifyProof` fold (spec section 4.6), which
src/ does not implement.  Starting from the leaf digest, each step hashes
`doubleHash(current || branch[i])` when the running index is even and
`doubleHash(branch[i] || current)` when it is odd, then halves the index. -/
def verifyFold (leaf : List Nat) (branch : List (List Nat)) (index : Nat) : List Nat :=
  match branch with
  | [] => leaf
  | b :: rest =>
    if index % 2 = 0 then verifyFold (double_sha256 (leaf ++ b)) rest (index / 2)
    else verifyFold (double_sha256 (b ++ leaf)) rest (index / 2)

/-- Modelled from the spec: `verifyProof` compares the fold result against
the expected root for exact byte equality. -/
def verifyProof (leaf : List Nat) (branch : List (List Nat)) (index : Nat)
    (expectedRoot : List Nat) : Bool :=
  verifyFold leaf branch index == expectedRoot

/-! ### Merkle branch walker of scripts/get-block-txs.py -/

/-- The `while len(current) > 1` loop of get-block-txs.py `get_merkle_proof`:
duplicates the last node of an odd level in place, appends the sibling
re-encoded as byte-reversed display hex, recomputes the level, halves the
index; at the end returns the collected branch and `current[0]`. -/
def gbtLoop (branch : List (List Char)) (cur : List (List Nat)) (idx : Nat) :
    List (List Char) × List Nat :=
  if h : 1 < cur.length then
    gbtLoop
      (if (if idx % 2 = 0 then idx + 1 else idx - 1) < (dupIfOdd cur).length then
        branch ++ [hexEncode ((dupIfOdd cur).getD (if idx % 2 = 0 then idx + 1 else idx - 1) []).reverse]
       else branch)
      (hashPairs (dupIfOdd cur)) (idx / 2)
  else (branch, cur.headD [])
termination_by cur.length
decreasing_by exact next_length_lt h

/-- get-block-txs.py `get_merkle_proof`: single-leaf short-circuit, then the
in-place loop.  (`current[0]` on the reachable states is the head of a
non-empty list; `headD []` models it.) -/
def gbt_get_merkle_proof (tx_hashes : List (List Nat)) (tx_index : Nat) :
    List (List Char) × List Nat :=
  if tx_hashes.length = 1 then ([], tx_hashes.headD [])
  else gbtLoop [] tx_hashes tx_index

/-! ### Display and internal hash forms (merkle-proof.py) -/

/-- Python `str.replace` of the two-character pattern 0x with the empty
string: removes every (left-to-right, non-overlapping) occurrence. -/
def strip0x : List Char → List Char
  | [] => []
  | [c] => [c]
  | c1 :: c2 :: rest =>
    if c1 = '0' ∧ c2 = 'x' then strip0x rest else c1 :: strip0x (c2 :: rest)

/-- Python `str.zfill(64)`: left-pad with zero characters to length 64. -/
def zfill64 (s : List Char) : List Char :=
  List.replicate (64 - s.length) '0' ++ s

/-- The internal-form byte conversion shared by `hash_to_internal_hex` and
`hash_to_digest_array`: strip the optional 0x prefix, zero-pad to 64 hex
characters, decode hex, reverse the bytes. -/
def toInternalBytes (s : List Char) : Option (List Nat) :=
  (hexDecode (zfill64 (strip0x s))).map List.reverse

/-- merkle-proof.py `hash_to_internal_hex`: display-form hex to
internal-form hex. -/
def hash_to_internal_hex (s : List Char) : Option (List Char) :=
  (toInternalBytes s).map hexEncode

/-- The display-form re-encoding used on branch digests
(`b[::-1].hex()` in `generate_merkle_proof` and get-block-txs.py):
reverse the bytes and hex-encode. -/
def toDisplayHex (bs : List Nat) : List Char := hexEncode bs.reverse

/-! ### Block header serialization and hashing (scripts/fetch.py) -/

/-- The header fields consumed by `serialize_header`.  The three digest
fields model the already-decoded bytes of the dictionaries' hex entries
(internal byte order); the numeric fields are the u32/u256 scalars. -/
structure HeaderData where
  n_version : Nat
  hash_prev_block : List Nat
  hash_merkle_root : List Nat
  hash_block_commitments : List Nat
  n_time : Nat
  n_bits : Nat
  n_nonce : Nat

/-- fetch.py `serialize_header`: 140 fixed header bytes followed by the
compact-size-prefixed solution taken from the raw block at offset 140.
A marker byte of 0xfe/0xff raises the source's explicit exception; a raw
buffer too short for the indexed accesses raises IndexError/struct.error. -/
def serialize_header (hd : HeaderData) (raw : List Nat) : Except String (List Nat) :=
  let fixed := packLE 4 hd.n_version ++ hd.hash_prev_block ++ hd.hash_merkle_root ++
    hd.hash_block_commitments ++ packLE 4 hd.n_time ++ packLE 4 hd.n_bits ++
    packLE 32 hd.n_nonce
  if 140 < raw.length then
    let solution_length := raw.getD 140 0
    if solution_length < 0xfd then
      Except.ok (fixed ++ [solution_length] ++ (raw.drop 141).take solution_length)
    else if solution_length = 0xfd then
      if 143 ≤ raw.length then
        let len2 := raw.getD 141 0 + 256 * raw.getD 142 0
        Except.ok (fixed ++ [0xfd] ++ packLE 2 len2 ++ (raw.drop 143).take len2)
      else Except.error "struct.error"
    else Except.error "Unexpected solution length format"
  else Except.error "IndexError"

/-- The inline solution extraction of fetch.py `fetch_block_header`
(lines 245-256), as a function of the already-fetched raw block bytes.
Unlike `serialize_header`, its final branch silently sets the solution to
empty bytes instead of raising. -/
def extract_solution (raw : List Nat) : Except String (List Nat) :=
  if 140 < raw.length then
    let solution_length := raw.getD 140 0
    if solution_length < 0xfd then
      Except.ok ((raw.drop 141).take solution_length)
    else if solution_length = 0xfd then
      if 143 ≤ raw.length then
        Except.ok ((raw.drop 143).take (raw.getD 141 0 + 256 * raw.getD 142 0))
      else Except.error "struct.error"
    else Except.ok []
  else Except.error "IndexError"

/-- fetch.py `double_sha256`: double SHA-256 returning the byte-reversed
display hex string. -/
def fetch_double_sha256 (data : List Nat) : String :=
  String.mk (hexEncode (sha256 (sha256 data)).reverse)

/-- fetch.py `verify_block_hash`: serializes the header, hashes it, and
compares against the expected display hash; every exception is caught and
turned into `(False, "Error: " + message)`. -/
def verify_block_hash (hd : HeaderData) (raw : List Nat) (expected_hash : String) :
    Bool × String :=
  match serialize_header hd raw with
  | Except.ok serialized =>
    let computed := fetch_double_sha256 serialized
    (computed == expected_hash, computed)
  | Except.error e => (false, "Error: " ++ e)

/-! ### PoW decoding (fetch.py calculate_pow) -/

/-- fetch.py `calculate_pow`: decode the compact bits encoding into a target
and apply the work formula.  Python's unbounded `//` on possibly negative
integers is `Int.fdiv`. -/
def calculate_pow (bits : Nat) : Int :=
  let mantissa := bits &&& 0xffffff
  let exponent := (bits >>> 24) &&& 0xff
  let target := if exponent ≤ 3 then mantissa >>> (8 * (3 - exponent))
                else mantissa <<< (8 * (exponent - 3))
  if target = 0 then 0
  else Int.fdiv ((2 : Int) ^ 256 - 1 - (target : Int)) ((target : Int) + 1) + 1

/-- Modelled from the spec: `bitsToTarget` (spec section 4.5), written with
plain arithmetic (mod, division, multiplication by powers of two). -/
def bitsToTarget (bits : Nat) : Nat :=
  let mantissa := bits % 2 ^ 24
  let exponent := bits / 2 ^ 24 % 2 ^ 8
  if exponent ≤ 3 then mantissa / 2 ^ (8 * (3 - exponent))
  else mantissa * 2 ^ (8 * (exponent - 3))

/-- Modelled from the spec: the target-to-work formula of spec section 4.5,
`((2^256 - 1 - target) // (target + 1)) + 1` in exact integer arithmetic,
and 0 for a zero target. -/
def workFromTarget (target : Nat) : Int :=
  if target = 0 then 0
  else Int.fdiv ((2 : Int) ^ 256 - 1 - (target : Int)) ((target : Int) + 1) + 1

/-! ### Verification identifier (scripts/compute-verification-id.py and
scripts/format-block-calldata.py) -/

/-- compute-verification-id.py `compute_verification_id_from_block_hash`:
strip 0x, decode the display hex, reverse to internal bytes, re-encode as
hex, parse eight 8-character chunks as big-endian u32 words, and fold the
first seven words as `result * 2^32 + word`. -/
def compute_verification_id_from_block_hash (s : List Char) : Option Nat := do
  let hash_bytes ← hexDecode (strip0x s)
  let internal_hex := hexEncode hash_bytes.reverse
  let u32_array ← (List.range 8).mapM
    (fun i => parseHexNat ((internal_hex.drop (8 * i)).take 8))
  pure ((u32_array.take 7).foldl (fun r w => r * 0x100000000 + w) 0)

/-- Hex representation of a natural number (Python format specifier x):
most significant digit first, a single zero digit for zero. -/
def hexRep (n : Nat) : List Char :=
  if h : n < 16 then [hexDigitChar n]
  else hexRep (n / 16) ++ [hexDigitChar (n % 16)]
termination_by n
decreasing_by exact Nat.div_lt_self (by omega) (by omega)

/-- Python format expression 056x applied after the 0x literal prefix:
zero-pad the hex representation to width 56. -/
def pad56 (digits : List Char) : List Char :=
  List.replicate (56 - digits.length) '0' ++ digits

/-- format-block-calldata.py `compute_verification_id` (the same fold as
compute-verification-id.py, then formatted as a 0x-prefixed, zero-padded
56-hex-digit string). -/
def compute_verification_id (s : List Char) : Option (List Char) :=
  (compute_verification_id_from_block_hash s).map
    (fun v => ['0', 'x'] ++ pad56 (hexRep v))

/-- Modelled from the spec: `packVerificationId` (spec section 4.7) folds the
first seven 32-bit words left-to-right as `result * 2^32 + word`. -/
def packVerificationId (ws : List Nat) : Nat :=
  (ws.take 7).foldl (fun r w => r * 2 ^ 32 + w) 0

/-- Modelled from the spec: the eight big-endian 32-bit words of a 32-byte
internal-form digest (spec section 4.1 `toDigestWords`). -/
def digestWordsBE (bs : List Nat) : List Nat :=
  (List.range 8).map (fun i => beWord ((bs.drop (4 * i)).take 4))

/-! ### Proof infrastructure: recursive characterizations of the level walks -/

/-- Recursive characterization of the branch collected by the per-level
walks of both `get_merkle_proof` implementations. -/
def branchRec (cur : List (List Nat)) (idx : Nat) : List (List Nat) :=
  if h : 1 < cur.length then
    (if (if idx % 2 = 0 then idx + 1 else idx - 1) < (dupIfOdd cur).length then
      [(dupIfOdd cur).getD (if idx % 2 = 0 then idx + 1 else idx - 1) []]
     else []) ++
    branchRec (hashPairs (dupIfOdd cur)) (idx / 2)
  else []
termination_by cur.length
decreasing_by exact next_length_lt h

/-- The last level reached by repeatedly hashing pairs; its head is the
Merkle root of a non-empty leaf list. -/
def finalLevel (cur : List (List Nat)) : List (List Nat) :=
  if h : 1 < cur.length then finalLevel (hashPairs (dupIfOdd cur)) else cur
termination_by cur.length
decreasing_by exact next_length_lt h

/-! ## Merkle tree lemmas -/

theorem dupIfOdd_getD (l : List (List Nat)) (i : Nat) (h : i < l.length) :
    (dupIfOdd l).getD i [] = l.getD i [] := by
  unfold dupIfOdd
  split
  · exact List.getD_append _ _ _ _ h
  · rfl

theorem hashPairs_getD (d : List (List Nat)) (j : Nat) (h : 2 * j + 1 < d.length) :
    (hashPairs d).getD j [] =
      double_sha256 (d.getD (2 * j) [] ++ d.getD (2 * j + 1) []) := by
  match d, j with
  | [], j => simp at h
  | [a], j => simp at h
  | a :: b :: rest, 0 => simp [hashPairs]
  | a :: b :: rest, j + 1 =>
    have h' : 2 * j + 1 < rest.length := by
      simp only [List.length_cons] at h
      omega
    have r1 : (a :: b :: rest).getD (2 * (j + 1)) [] = rest.getD (2 * j) [] := by
      rw [show 2 * (j + 1) = 2 * j + 1 + 1 by ring, List.getD_cons_succ, List.getD_cons_succ]
    have r2 : (a :: b :: rest).getD (2 * (j + 1) + 1) [] = rest.getD (2 * j + 1) [] := by
      rw [show 2 * (j + 1) + 1 = 2 * j + 1 + 1 + 1 by ring, List.getD_cons_succ,
        List.getD_cons_succ]
    have lhs : (hashPairs (a :: b :: rest)).getD (j + 1) [] = (hashPairs rest).getD j [] := by
      simp [hashPairs]
    rw [lhs, hashPairs_getD rest j h', r1, r2]

theorem sibling_lt {l : List (List Nat)} {idx : Nat} (hidx : idx < l.length) :
    (if idx % 2 = 0 then idx + 1 else idx - 1) < (dupIfOdd l).length := by
  have h1 := dupIfOdd_length l
  split <;> omega

theorem idx_half_lt {l : List (List Nat)} {idx : Nat} (hidx : idx < l.length)
    (h1 : 1 < l.length) : idx / 2 < (hashPairs (dupIfOdd l)).length := by
  rw [hashPairs_length, dupIfOdd_length]
  omega

theorem headD_eq_getD_zero (l : List (List Nat)) : l.headD [] = l.getD 0 [] := by
  cases l <;> rfl

theorem finalLevel_step {cur : List (List Nat)} (h1 : 1 < cur.length) :
    finalLevel cur = finalLevel (hashPairs (dupIfOdd cur)) := by
  rw [finalLevel, dif_pos h1]

theorem verifyFold_branchRec (cur : List (List Nat)) (idx : Nat) (hidx : idx < cur.length) :
    verifyFold (cur.getD idx []) (branchRec cur idx) idx = (finalLevel cur).headD [] := by
  by_cases h1 : 1 < cur.length
  · have hs := sibling_lt hidx
    rw [branchRec, dif_pos h1, if_pos hs, List.singleton_append]
    have hcur : cur.getD idx [] = (dupIfOdd cur).getD idx [] :=
      (dupIfOdd_getD cur idx hidx).symm
    by_cases hpar : idx % 2 = 0
    · rw [if_pos hpar] at hs ⊢
      simp only [verifyFold, if_pos hpar]
      rw [hcur]
      have hhash : double_sha256 ((dupIfOdd cur).getD idx [] ++ (dupIfOdd cur).getD (idx + 1) []) =
          (hashPairs (dupIfOdd cur)).getD (idx / 2) [] := by
        rw [hashPairs_getD (dupIfOdd cur) (idx / 2) (by omega)]
        rw [show 2 * (idx / 2) = idx by omega]
      rw [hhash, verifyFold_branchRec (hashPairs (dupIfOdd cur)) (idx / 2) (idx_half_lt hidx h1),
        finalLevel_step h1]
    · rw [if_neg hpar] at hs ⊢
      simp only [verifyFold, if_neg hpar]
      rw [hcur]
      have hhash : double_sha256 ((dupIfOdd cur).getD (idx - 1) [] ++ (dupIfOdd cur).getD idx []) =
          (hashPairs (dupIfOdd cur)).getD (idx / 2) [] := by
        rw [hashPairs_getD (dupIfOdd cur) (idx / 2) (by rw [dupIfOdd_length]; omega)]
        rw [show 2 * (idx / 2) = idx - 1 by omega, show idx - 1 + 1 = idx by omega]
      rw [hhash, verifyFold_branchRec (hashPairs (dupIfOdd cur)) (idx / 2) (idx_half_lt hidx h1),
        finalLevel_step h1]
  · rw [branchRec, dif_neg h1, finalLevel, dif_neg h1]
    simp only [verifyFold]
    rw [show idx = 0 by omega, headD_eq_getD_zero]
termination_by cur.length
decreasing_by
  · exact next_length_lt h1
  · exact next_length_lt h1

theorem buildLevels_ne_nil (l : List (List Nat)) : buildLevels l ≠ [] := by
  rw [buildLevels]
  split <;> simp

theorem getLastD_irrel {α : Type} {l : List α} (h : l ≠ []) (d1 d2 : α) :
    l.getLastD d1 = l.getLastD d2 := by
  cases l with
  | nil => exact absurd rfl h
  | cons a t => rw [List.getLastD_cons, List.getLastD_cons]

theorem buildLevels_getLastD (cur : List (List Nat)) :
    (buildLevels cur).getLastD [] = finalLevel cur := by
  by_cases h1 : 1 < cur.length
  · rw [buildLevels, dif_pos h1, List.getLastD_cons,
      getLastD_irrel (buildLevels_ne_nil _) cur [],
      buildLevels_getLastD (hashPairs (dupIfOdd cur)), finalLevel_step h1]
  · rw [buildLevels, dif_neg h1, finalLevel, dif_neg h1]
    rfl
termination_by cur.length
decreasing_by exact next_length_lt h1

theorem foldl_proofStep_eq (cur : List (List Nat)) (acc : List (List Nat)) (idx : Nat) :
    (((buildLevels cur).dropLast).foldl proofStep (acc, idx)).1 = acc ++ branchRec cur idx := by
  by_cases h1 : 1 < cur.length
  · rw [buildLevels, dif_pos h1,
      List.dropLast_cons_of_ne_nil (buildLevels_ne_nil _), List.foldl_cons]
    have hps : proofStep (acc, idx) cur =
        ((if (if idx % 2 = 0 then idx + 1 else idx - 1) < (dupIfOdd cur).length then
            acc ++ [(dupIfOdd cur).getD (if idx % 2 = 0 then idx + 1 else idx - 1) []]
          else acc), idx / 2) := rfl
    rw [hps, foldl_proofStep_eq (hashPairs (dupIfOdd cur)) _ (idx / 2)]
    conv_rhs => rw [branchRec]
    rw [dif_pos h1]
    by_cases hc : (if idx % 2 = 0 then idx + 1 else idx - 1) < (dupIfOdd cur).length
    · rw [if_pos hc, if_pos hc, List.append_assoc, List.singleton_append]
    · rw [if_neg hc, if_neg hc, List.nil_append]
  · rw [buildLevels, dif_neg h1, List.dropLast_single, List.foldl_nil,
      branchRec, dif_neg h1, List.append_nil]
termination_by cur.length
decreasing_by exact next_length_lt h1

theorem gbtLoop_eq (cur : List (List Nat)) (branch : List (List Char)) (idx : Nat) :
    gbtLoop branch cur idx =
      (branch ++ (branchRec cur idx).map (fun b => hexEncode b.reverse),
       (finalLevel cur).headD []) := by
  by_cases h1 : 1 < cur.length
  · rw [gbtLoop, dif_pos h1, gbtLoop_eq (hashPairs (dupIfOdd cur)) _ (idx / 2)]
    conv_rhs => rw [branchRec]
    rw [dif_pos h1, finalLevel_step h1]
    by_cases hc : (if idx % 2 = 0 then idx + 1 else idx - 1) < (dupIfOdd cur).length
    · rw [if_pos hc, if_pos hc]
      simp [List.append_assoc]
    · rw [if_neg hc, if_neg hc]
      simp
  · rw [gbtLoop, dif_neg h1, branchRec, dif_neg h1, finalLevel, dif_neg h1]
    simp
termination_by cur.length
decreasing_by exact next_length_lt h1

theorem get_merkle_proof_fst (leaves : List (List Nat)) (i : Nat) (hne : leaves ≠ []) :
    (get_merkle_proof leaves i).1 = branchRec leaves i := by
  have hE : leaves.isEmpty = false := List.isEmpty_eq_false.mpr hne
  simp only [get_merkle_proof, build_merkle_tree, hE, Bool.false_eq_true, if_false]
  rw [foldl_proofStep_eq leaves [] i, List.nil_append]

theorem get_merkle_proof_snd (leaves : List (List Nat)) (i : Nat) (hne : leaves ≠ []) :
    (get_merkle_proof leaves i).2 = (finalLevel leaves).headD [] := by
  have hE : leaves.isEmpty = false := List.isEmpty_eq_false.mpr hne
  simp only [get_merkle_proof, build_merkle_tree, hE, Bool.false_eq_true, if_false]
  rw [buildLevels_getLastD]

/-- C1: Merkle proof symmetry.  For every non-empty list of 32-byte leaf
digests and every index i below the number of leaves, if
`(branch, root) = get_merkle_proof leaves i`, then folding the branch
starting from `leaves[i]` — hashing `doubleHash(current || sibling)` when
the running index is even and `doubleHash(sibling || current)` when it is
odd, then halving the index — yields exactly `root`: the spec's
`verifyProof` returns true. -/
theorem merkle_proof_symmetry (leaves : List (List Nat)) (i : Nat)
    (h32 : ∀ l ∈ leaves, l.length = 32) (hne : leaves ≠ []) (hi : i < leaves.length) :
    verifyProof (leaves.getD i []) (get_merkle_proof leaves i).1 i
      (get_merkle_proof leaves i).2 = true := by
  rw [verifyProof, get_merkle_proof_fst leaves i hne, get_merkle_proof_snd leaves i hne,
    verifyFold_branchRec leaves i hi]
  exact beq_self_eq_true _

/-- Witness for C1: two 32-byte leaves, index 1. -/
theorem merkle_proof_symmetry_witness :
    (∀ l ∈ [List.replicate 32 0, List.replicate 32 1], l.length = 32) ∧
    ([List.replicate 32 0, List.replicate 32 1] : List (List Nat)) ≠ [] ∧
    1 < ([List.replicate 32 0, List.replicate 32 1] : List (List Nat)).length ∧
    verifyProof (([List.replicate 32 0, List.replicate 32 1] : List (List Nat)).getD 1 [])
      (get_merkle_proof [List.replicate 32 0, List.replicate 32 1] 1).1 1
      (get_merkle_proof [List.replicate 32 0, List.replicate 32 1] 1).2 = true :=
  ⟨by decide, by decide, by decide,
   merkle_proof_symmetry [List.replicate 32 0, List.replicate 32 1] 1
     (by decide) (by decide) (by decide)⟩

/-- C4: Merkle odd-count duplication.  For three distinct 32-byte leaves
A, B, C, the tree duplicates C (appends a copy) before pairing, so level 1
is `[doubleHash(A||B), doubleHash(C||C)]` and the root is
`doubleHash(doubleHash(A||B) || doubleHash(C||C))`. -/
theorem merkle_odd_duplication (A B C : List Nat)
    (hA : A.length = 32) (hB : B.length = 32) (hC : C.length = 32)
    (hAB : A ≠ B) (hAC : A ≠ C) (hBC : B ≠ C) :
    (build_merkle_tree [A, B, C]).2.getD 1 [] =
      [double_sha256 (A ++ B), double_sha256 (C ++ C)] ∧
    (build_merkle_tree [A, B, C]).1 =
      double_sha256 (double_sha256 (A ++ B) ++ double_sha256 (C ++ C)) := by
  have hlv : buildLevels [A, B, C] =
      [[A, B, C], [double_sha256 (A ++ B), double_sha256 (C ++ C)],
       [double_sha256 (double_sha256 (A ++ B) ++ double_sha256 (C ++ C))]] := by
    rw [buildLevels, dif_pos (by simp : 1 < ([A, B, C] : List (List Nat)).length)]
    have hd : dupIfOdd [A, B, C] = [A, B, C, C] := by
      simp [dupIfOdd, List.getLastD_cons]
    rw [hd]
    have hh : hashPairs [A, B, C, C] = [double_sha256 (A ++ B), double_sha256 (C ++ C)] := by
      simp [hashPairs]
    rw [hh, buildLevels,
      dif_pos (by simp :
        1 < ([double_sha256 (A ++ B), double_sha256 (C ++ C)] : List (List Nat)).length)]
    have hd2 : dupIfOdd [double_sha256 (A ++ B), double_sha256 (C ++ C)] =
        [double_sha256 (A ++ B), double_sha256 (C ++ C)] := by
      simp [dupIfOdd]
    rw [hd2]
    have hh2 : hashPairs [double_sha256 (A ++ B), double_sha256 (C ++ C)] =
        [double_sha256 (double_sha256 (A ++ B) ++ double_sha256 (C ++ C))] := by
      simp [hashPairs]
    rw [hh2, buildLevels, dif_neg (by simp)]
  constructor
  · simp [build_merkle_tree, hlv]
  · simp [build_merkle_tree, hlv, List.getLastD_cons]

/-- Witness for C4: three distinct concrete 32-byte leaves. -/
theorem merkle_odd_duplication_witness :
    ((List.replicate 32 0 : List Nat) ≠ List.replicate 32 1 ∧
     (List.replicate 32 0 : List Nat) ≠ List.replicate 32 2 ∧
     (List.replicate 32 1 : List Nat) ≠ List.replicate 32 2) ∧
    (build_merkle_tree [List.replicate 32 0, List.replicate 32 1,
        List.replicate 32 2]).2.getD 1 [] =
      [double_sha256 (List.replicate 32 0 ++ List.replicate 32 1),
       double_sha256 (List.replicate 32 2 ++ List.replicate 32 2)] ∧
    (build_merkle_tree [List.replicate 32 0, List.replicate 32 1,
        List.replicate 32 2]).1 =
      double_sha256 (double_sha256 (List.replicate 32 0 ++ List.replicate 32 1) ++
        double_sha256 (List.replicate 32 2 ++ List.replicate 32 2)) :=
  ⟨⟨by decide, by decide, by decide⟩,
   merkle_odd_duplication (List.replicate 32 0) (List.replicate 32 1) (List.replicate 32 2)
     (by decide) (by decide) (by decide) (by decide) (by decide) (by decide)⟩

/-- C10: equivalence of the two Merkle-branch implementations.  For every
non-empty leaf list and in-range index, merkle-proof.py's level-walking
`get_merkle_proof` and get-block-txs.py's in-place `get_merkle_proof` return
the same root bytes and the same branch sibling-for-sibling, with the latter
re-encoding each sibling as byte-reversed display hex. -/
theorem merkle_branch_equivalence (leaves : List (List Nat)) (i : Nat)
    (hne : leaves ≠ []) (hi : i < leaves.length) :
    (gbt_get_merkle_proof leaves i).2 = (get_merkle_proof leaves i).2 ∧
    (gbt_get_merkle_proof leaves i).1 =
      (get_merkle_proof leaves i).1.map (fun b => hexEncode b.reverse) := by
  rw [get_merkle_proof_fst leaves i hne, get_merkle_proof_snd leaves i hne]
  by_cases hone : leaves.length = 1
  · have hfl : finalLevel leaves = leaves := by
      rw [finalLevel, dif_neg (by omega)]
    have hbr : branchRec leaves i = [] := by
      rw [branchRec, dif_neg (by omega)]
    unfold gbt_get_merkle_proof
    rw [if_pos hone, hfl, hbr]
    simp
  · unfold gbt_get_merkle_proof
    rw [if_neg hone, gbtLoop_eq]
    simp

/-! ## PoW decoding lemmas -/

theorem calculate_pow_eq (bits : Nat) :
    calculate_pow bits = workFromTarget (bitsToTarget bits) := by
  simp only [calculate_pow, workFromTarget, bitsToTarget]
  rw [show (0xffffff : Nat) = 2 ^ 24 - 1 by norm_num,
    show (0xff : Nat) = 2 ^ 8 - 1 by norm_num]
  simp only [Nat.and_pow_two_sub_one_eq_mod, Nat.shiftRight_eq_div_pow, Nat.shiftLeft_eq]

theorem workFromTarget_eq (t : Nat) (ht : t ≠ 0) :
    workFromTarget t = ((2 ^ 256 / (t + 1) : Nat) : Int) := by
  rw [workFromTarget, if_neg ht]
  rw [Int.fdiv_eq_ediv _ (by positivity : (0 : Int) ≤ (t : Int) + 1)]
  rw [show ((2 : Int) ^ 256 - 1 - (t : Int)) = (2 : Int) ^ 256 + (-1) * ((t : Int) + 1) by ring]
  rw [Int.add_mul_ediv_right _ _ (by omega : ((t : Int) + 1) ≠ 0)]
  rw [show ((2 : Int) ^ 256) = ((2 ^ 256 : Nat) : Int) by push_cast]
  rw [show ((t : Int) + 1) = ((t + 1 : Nat) : Int) by omega]
  rw [← Int.ofNat_ediv]
  ring

theorem workFromTarget_antitone {t1 t2 : Nat} (h0 : 0 < t1) (hlt : t1 < t2) :
    workFromTarget t2 ≤ workFromTarget t1 := by
  rw [workFromTarget_eq t1 (by omega), workFromTarget_eq t2 (by omega)]
  exact_mod_cast Nat.div_le_div_left (by omega) (by omega)

/-- C3: PoW decoding.  For every bits value, `calculate_pow` computes
exactly the spec's decoded target (mantissa shifted by the exponent) fed
into the spec's work formula `((2^256 - 1 - target) // (target + 1)) + 1`
(0 for a zero target), in exact unbounded integer arithmetic. -/
theorem pow_decoding (bits : Nat) :
    calculate_pow bits = workFromTarget (bitsToTarget bits) :=
  calculate_pow_eq bits

set_option maxRecDepth 4000 in
/-- C7 counterexample: two bits values whose decoded targets are strictly
ordered but whose work values are both 1, refuting strict monotonicity. -/
theorem pow_monotonicity_counterexample :
    bitsToTarget 0x20800001 < bitsToTarget 0x20800002 ∧
    ¬ calculate_pow 0x20800001 > calculate_pow 0x20800002 := by
  constructor
  · decide
  · decide

/-- C7 amended: for bits values with nonzero, strictly ordered decoded
targets, the work value is weakly antitone (the smaller target never yields
smaller work). -/
theorem pow_weak_antitonicity (b1 b2 : Nat)
    (h0 : 0 < bitsToTarget b1) (hlt : bitsToTarget b1 < bitsToTarget b2) :
    calculate_pow b2 ≤ calculate_pow b1 := by
  rw [calculate_pow_eq b1, calculate_pow_eq b2]
  exact workFromTarget_antitone h0 hlt

/-! ## Header serialization lemmas -/

theorem getD_drop_cons {raw : List Nat} {n : Nat} (hn : n < raw.length) :
    raw.drop n = raw.getD n 0 :: raw.drop (n + 1) := by
  rw [List.getD_eq_getElem _ _ hn]
  exact List.drop_eq_getElem_cons hn

theorem getD_lt_of_forall {raw : List Nat} {n : Nat} (hb : ∀ b ∈ raw, b < 256)
    (hn : n < raw.length) : raw.getD n 0 < 256 := by
  apply hb
  rw [List.getD_eq_getElem _ _ hn]
  exact List.getElem_mem hn

theorem packLE_two {a b : Nat} (ha : a < 256) (hb : b < 256) :
    packLE 2 (a + 256 * b) = [a, b] := by
  simp [packLE, List.range_succ]
  constructor <;> omega

/-- C2: Header serialization.  Whenever the raw block holds a complete
compact-size-prefixed solution at offset 140 (marker below 0xfd, or marker
0xfd with an in-range two-byte length), `serialize_header` returns exactly
the 140 fixed header bytes — version, three 32-byte digests, time, bits,
nonce, in the stated byte orders — followed by the prefix and solution bytes
copied verbatim from the raw block starting at offset 140. -/
theorem header_serialization (hd : HeaderData) (raw : List Nat)
    (hbytes : ∀ b ∈ raw, b < 256)
    (hver : hd.n_version < 2 ^ 32) (htime : hd.n_time < 2 ^ 32)
    (hbits : hd.n_bits < 2 ^ 32) (hnonce : hd.n_nonce < 2 ^ 256)
    (hprev : hd.hash_prev_block.length = 32) (hroot : hd.hash_merkle_root.length = 32)
    (hcomm : hd.hash_block_commitments.length = 32)
    (hok : (raw.getD 140 0 < 0xfd ∧ 141 + raw.getD 140 0 ≤ raw.length) ∨
           (raw.getD 140 0 = 0xfd ∧ 143 + (raw.getD 141 0 + 256 * raw.getD 142 0) ≤ raw.length)) :
    serialize_header hd raw = Except.ok
      (packLE 4 hd.n_version ++ hd.hash_prev_block ++ hd.hash_merkle_root ++
       hd.hash_block_commitments ++ packLE 4 hd.n_time ++ packLE 4 hd.n_bits ++
       packLE 32 hd.n_nonce ++
       (raw.drop 140).take
         (if raw.getD 140 0 < 0xfd then 1 + raw.getD 140 0
          else 3 + (raw.getD 141 0 + 256 * raw.getD 142 0))) := by
  have hlen : 140 < raw.length := by
    rcases hok with ⟨_, h⟩ | ⟨_, h⟩ <;> omega
  rcases hok with ⟨hm, hsz⟩ | ⟨hm, hsz⟩
  · have ht : (raw.drop 140).take (1 + raw.getD 140 0) =
        raw.getD 140 0 :: (raw.drop 141).take (raw.getD 140 0) := by
      rw [getD_drop_cons hlen, show 1 + raw.getD 140 0 = raw.getD 140 0 + 1 by omega,
        List.take_succ_cons]
    simp only [serialize_header]
    rw [if_pos hlen, if_pos hm, if_pos hm, ht]
    simp [List.append_assoc]
  · have h141 : 141 < raw.length := by omega
    have h142 : 142 < raw.length := by omega
    have b141 : raw.getD 141 0 < 256 := getD_lt_of_forall hbytes h141
    have b142 : raw.getD 142 0 < 256 := getD_lt_of_forall hbytes h142
    have hpack : packLE 2 (raw.getD 141 0 + 256 * raw.getD 142 0) =
        [raw.getD 141 0, raw.getD 142 0] := packLE_two b141 b142
    have ht : (raw.drop 140).take (3 + (raw.getD 141 0 + 256 * raw.getD 142 0)) =
        raw.getD 140 0 :: raw.getD 141 0 :: raw.getD 142 0 ::
          (raw.drop 143).take (raw.getD 141 0 + 256 * raw.getD 142 0) := by
      rw [getD_drop_cons hlen, getD_drop_cons h141, getD_drop_cons h142,
        show 3 + (raw.getD 141 0 + 256 * raw.getD 142 0) =
          ((raw.getD 141 0 + 256 * raw.getD 142 0) + 2) + 1 by omega,
        List.take_succ_cons,
        show (raw.getD 141 0 + 256 * raw.getD 142 0) + 2 =
          ((raw.getD 141 0 + 256 * raw.getD 142 0) + 1) + 1 by omega,
        List.take_succ_cons, List.take_succ_cons]
    simp only [serialize_header]
    rw [if_pos hlen, if_neg (by omega : ¬ raw.getD 140 0 < 0xfd), if_pos hm,
      if_pos (by omega : 143 ≤ raw.length),
      if_neg (by omega : ¬ raw.getD 140 0 < 0xfd), ht, hm, hpack]
    simp [List.append_assoc]

set_option maxRecDepth 20000 in
/-- Witness for C2: a concrete header and a 143-byte raw block whose
solution field is the two bytes 0xAA 0xBB with one-byte length prefix 2. -/
theorem header_serialization_witness :
    (∀ b ∈ List.replicate 140 0 ++ [2, 0xAA, 0xBB], b < 256) ∧
    ((List.replicate 140 0 ++ [2, 0xAA, 0xBB]).getD 140 0 < 0xfd ∧
      141 + (List.replicate 140 0 ++ [2, 0xAA, 0xBB]).getD 140 0 ≤
        (List.replicate 140 0 ++ [2, 0xAA, 0xBB]).length) ∧
    serialize_header
      ⟨1, List.replicate 32 2, List.replicate 32 3, List.replicate 32 4, 5, 6, 7⟩
      (List.replicate 140 0 ++ [2, 0xAA, 0xBB]) = Except.ok
      (packLE 4 1 ++ List.replicate 32 2 ++ List.replicate 32 3 ++
       List.replicate 32 4 ++ packLE 4 5 ++ packLE 4 6 ++ packLE 32 7 ++
       ((List.replicate 140 0 ++ [2, 0xAA, 0xBB]).drop 140).take
         (if (List.replicate 140 0 ++ [2, 0xAA, 0xBB]).getD 140 0 < 0xfd then
            1 + (List.replicate 140 0 ++ [2, 0xAA, 0xBB]).getD 140 0
          else 3 + ((List.replicate 140 0 ++ [2, 0xAA, 0xBB]).getD 141 0 +
            256 * (List.replicate 140 0 ++ [2, 0xAA, 0xBB]).getD 142 0))) :=
  ⟨by decide, ⟨by decide, by decide⟩,
   header_serialization
     ⟨1, List.replicate 32 2, List.replicate 32 3, List.replicate 32 4, 5, 6, 7⟩
     (List.replicate 140 0 ++ [2, 0xAA, 0xBB])
     (by decide) (by decide) (by decide) (by decide) (by decide)
     (by decide) (by decide) (by decide)
     (Or.inl ⟨by decide, by decide⟩)⟩

/-! ## Unsupported compact-size markers and verification results -/

set_option maxRecDepth 20000 in
/-- C5 counterexample: at a raw block whose marker byte at offset 140 is
0xfe, the inline solution extraction of `fetch_block_header` silently
succeeds with empty bytes instead of failing, even though `serialize_header`
raises on the very same buffer. -/
theorem unsupported_marker_counterexample :
    extract_solution (List.replicate 140 0 ++ [0xfe]) = Except.ok [] ∧
    serialize_header ⟨0, [], [], [], 0, 0, 0⟩ (List.replicate 140 0 ++ [0xfe]) =
      Except.error "Unexpected solution length format" := by
  constructor
  · rfl
  · rfl

/-- C5 amended: for a marker byte 254 or 255 at offset 140,
`serialize_header` fails with the source's unsupported-format error, while
the solution extraction inside `fetch_block_header` silently defaults the
solution to empty bytes instead of failing. -/
theorem unsupported_marker_amended (hd : HeaderData) (raw : List Nat)
    (hlen : 140 < raw.length)
    (hm : raw.getD 140 0 = 0xfe ∨ raw.getD 140 0 = 0xff) :
    serialize_header hd raw = Except.error "Unexpected solution length format" ∧
    extract_solution raw = Except.ok [] := by
  have h1 : ¬ raw.getD 140 0 < 0xfd := by rcases hm with h | h <;> omega
  have h2 : ¬ raw.getD 140 0 = 0xfd := by rcases hm with h | h <;> omega
  constructor
  · simp only [serialize_header]
    rw [if_pos hlen, if_neg h1, if_neg h2]
  · simp only [extract_solution]
    rw [if_pos hlen, if_neg h1, if_neg h2]

set_option maxRecDepth 20000 in
/-- Witness for C5 amended: marker 0xff at offset 140. -/
theorem unsupported_marker_amended_witness :
    140 < (List.replicate 140 0 ++ [0xff] : List Nat).length ∧
    ((List.replicate 140 0 ++ [0xff] : List Nat).getD 140 0 = 0xfe ∨
     (List.replicate 140 0 ++ [0xff] : List Nat).getD 140 0 = 0xff) ∧
    (serialize_header ⟨0, [], [], [], 0, 0, 0⟩ (List.replicate 140 0 ++ [0xff]) =
       Except.error "Unexpected solution length format" ∧
     extract_solution (List.replicate 140 0 ++ [0xff]) = Except.ok []) :=
  ⟨by decide, Or.inr (by decide),
   unsupported_marker_amended ⟨0, [], [], [], 0, 0, 0⟩ (List.replicate 140 0 ++ [0xff])
     (by decide) (Or.inr (by decide))⟩

theorem hexEncode_length : ∀ bs : List Nat, (hexEncode bs).length = 2 * bs.length
  | [] => rfl
  | b :: t => by
    have ih := hexEncode_length t
    simp only [hexEncode, List.flatMap_cons, List.length_append, List.length_cons,
      List.length_nil] at ih ⊢
    omega

theorem sha256_length (msg : List Nat) : (sha256 msg).length = 32 := by
  rw [sha256]
  generalize (blocksOf16 (bytesToWordsBE (sha256Pad msg))).foldl sha256Compress sha256Init = st
  obtain ⟨a, b, c, d, e, f, g, h⟩ := st
  simp [sha256Digest, packBE]

theorem fetch_double_sha256_length (data : List Nat) :
    (fetch_double_sha256 data).length = 64 := by
  rw [show (fetch_double_sha256 data).length =
    (hexEncode (sha256 (sha256 data)).reverse).length from rfl]
  rw [hexEncode_length, List.length_reverse, sha256_length]

set_option maxRecDepth 20000 in
/-- C6 counterexample: a compact-size decode error inside the serializer
does not propagate out of `verify_block_hash`; it is converted into the
false verification result `(false, "Error: ...")`. -/
theorem verification_error_conversion_counterexample :
    verify_block_hash ⟨0, [], [], [], 0, 0, 0⟩ (List.replicate 140 0 ++ [0xfe]) "00" =
      (false, "Error: Unexpected solution length format") := by
  rfl

/-- C6 amended: `verify_block_hash` returns, on a successful serialization,
the pair of the byte-equality verdict and the computed 64-hex-character
display hash; on a serializer error it catches the error and returns
`(false, "Error: " ++ message)` instead of propagating it.  The two cases
stay distinguishable through the second component (a 64-character hex
digest versus an Error-prefixed message). -/
theorem verification_result_amended (hd : HeaderData) (raw : List Nat) (expected : String) :
    (∀ s, serialize_header hd raw = Except.ok s →
      verify_block_hash hd raw expected =
        ((fetch_double_sha256 s == expected), fetch_double_sha256 s) ∧
      (fetch_double_sha256 s).length = 64) ∧
    (∀ e, serialize_header hd raw = Except.error e →
      verify_block_hash hd raw expected = (false, "Error: " ++ e)) := by
  constructor
  · intro s hs
    constructor
    · unfold verify_block_hash
      rw [hs]
    · exact fetch_double_sha256_length s
  · intro e he
    unfold verify_block_hash
    rw [he]

set_option maxRecDepth 20000 in
/-- Witness for C6 amended: the error branch at a concrete 0xff-marker
buffer. -/
theorem verification_result_amended_witness :
    serialize_header ⟨0, [], [], [], 0, 0, 0⟩ (List.replicate 140 0 ++ [0xff]) =
      Except.error "Unexpected solution length format" ∧
    verify_block_hash ⟨0, [], [], [], 0, 0, 0⟩ (List.replicate 140 0 ++ [0xff]) "ab" =
      (false, "Error: " ++ "Unexpected solution length format") :=
  ⟨by rfl,
   (verification_result_amended ⟨0, [], [], [], 0, 0, 0⟩
       (List.replicate 140 0 ++ [0xff]) "ab").2
     "Unexpected solution length format" (by rfl)⟩

/-! ## Hex round trip lemmas -/

theorem hexVal_of_mem {c : Char} (h : c ∈ hexDigits) :
    ∃ v, v < 16 ∧ hexVal c = some v ∧ hexDigitChar v = c := by
  simp only [hexDigits, List.cons_append, List.nil_append, List.mem_cons,
    List.not_mem_nil, or_false] at h
  rcases h with rfl | rfl | rfl | rfl | rfl | rfl | rfl | rfl | rfl | rfl | rfl | rfl |
    rfl | rfl | rfl | rfl
  · exact ⟨0, by decide⟩
  · exact ⟨1, by decide⟩
  · exact ⟨2, by decide⟩
  · exact ⟨3, by decide⟩
  · exact ⟨4, by decide⟩
  · exact ⟨5, by decide⟩
  · exact ⟨6, by decide⟩
  · exact ⟨7, by decide⟩
  · exact ⟨8, by decide⟩
  · exact ⟨9, by decide⟩
  · exact ⟨10, by decide⟩
  · exact ⟨11, by decide⟩
  · exact ⟨12, by decide⟩
  · exact ⟨13, by decide⟩
  · exact ⟨14, by decide⟩
  · exact ⟨15, by decide⟩

theorem hexDecode_hexEncode : ∀ cs : List Char, (∀ c ∈ cs, c ∈ hexDigits) →
    cs.length % 2 = 0 →
    ∃ bs, hexDecode cs = some bs ∧ hexEncode bs = cs ∧
      bs.length = cs.length / 2 ∧ ∀ b ∈ bs, b < 256
  | [], _, _ => ⟨[], rfl, rfl, rfl, by simp⟩
  | [c], _, h2 => by simp at h2
  | c1 :: c2 :: rest, h1, h2 => by
    obtain ⟨d1, hd1lt, hv1, hc1⟩ := hexVal_of_mem (h1 c1 (by simp))
    obtain ⟨d2, hd2lt, hv2, hc2⟩ := hexVal_of_mem (h1 c2 (by simp))
    obtain ⟨bs, hdec, henc, hblen, hbnd⟩ := hexDecode_hexEncode rest
      (fun c hc => h1 c (by simp [hc]))
      (by simp only [List.length_cons] at h2 ⊢; omega)
    refine ⟨(16 * d1 + d2) :: bs, ?_, ?_, ?_, ?_⟩
    · simp [hexDecode, hv1, hv2, hdec]
    · simp only [hexEncode, List.flatMap_cons] at henc ⊢
      rw [show (16 * d1 + d2) / 16 = d1 by omega, show (16 * d1 + d2) % 16 = d2 by omega,
        hc1, hc2, henc]
      rfl
    · simp only [List.length_cons, hblen]
      omega
    · intro b hb
      rcases List.mem_cons.mp hb with rfl | hb
      · omega
      · exact hbnd b hb

theorem strip0x_of_no_x : ∀ s : List Char, 'x' ∉ s → strip0x s = s
  | [], _ => rfl
  | [_], _ => rfl
  | c1 :: c2 :: rest, h => by
    have hc2 : ¬ (c1 = '0' ∧ c2 = 'x') := by
      rintro ⟨_, rfl⟩
      exact h (by simp)
    rw [strip0x, if_neg hc2]
    congr 1
    exact strip0x_of_no_x (c2 :: rest) (fun hx => h (List.mem_cons_of_mem _ hx))

theorem zfill64_of_len64 {s : List Char} (h : s.length = 64) : zfill64 s = s := by
  simp [zfill64, h]

theorem no_x_of_hex {s : List Char} (hhex : ∀ c ∈ s, c ∈ hexDigits) : 'x' ∉ s := by
  intro hm
  have := hhex 'x' hm
  simp [hexDigits] at this

/-- C8: Display/internal round trip.  For every well-formed 64-hex-character
digest string (64 lowercase hex digits), converting to internal form (strip
the optional 0x prefix, zero-pad to 64 characters, decode hex, reverse the
bytes) and back to display form (reverse the bytes, hex-encode) yields the
original string. -/
theorem display_internal_round_trip (s : List Char) (hlen : s.length = 64)
    (hhex : ∀ c ∈ s, c ∈ hexDigits) :
    (toInternalBytes s).map toDisplayHex = some s := by
  obtain ⟨bs, hdec, henc, _, _⟩ := hexDecode_hexEncode s hhex (by omega)
  simp only [toInternalBytes, toDisplayHex]
  rw [strip0x_of_no_x s (no_x_of_hex hhex), zfill64_of_len64 hlen, hdec]
  simp [toDisplayHex, List.reverse_reverse, henc]

/-- Witness for C8: the 64-character string of letter a digits. -/
theorem display_internal_round_trip_witness :
    (List.replicate 64 'a').length = 64 ∧
    (∀ c ∈ List.replicate 64 'a', c ∈ hexDigits) ∧
    (toInternalBytes (List.replicate 64 'a')).map toDisplayHex =
      some (List.replicate 64 'a') :=
  ⟨by decide, by decide,
   display_internal_round_trip (List.replicate 64 'a') (by decide) (by decide)⟩

/-- Witness for C7 amended: targets 256 and 512. -/
theorem pow_weak_antitonicity_witness :
    0 < bitsToTarget 0x04000001 ∧ bitsToTarget 0x04000001 < bitsToTarget 0x04000002 ∧
    calculate_pow 0x04000002 ≤ calculate_pow 0x04000001 :=
  ⟨by decide, by decide, pow_weak_antitonicity 0x04000001 0x04000002 (by decide) (by decide)⟩

/-! ## Verification identifier lemmas -/

theorem hexVal_hexDigitChar {d : Nat} (h : d < 16) : hexVal (hexDigitChar d) = some d := by
  interval_cases d <;> decide

theorem bind_some_eq {α β : Type} (x : α) (k : α → Option β) :
    ((some x : Option α) >>= k) = k x := rfl

theorem hexEncode_cons (b : Nat) (t : List Nat) :
    hexEncode (b :: t) = hexDigitChar (b / 16) :: hexDigitChar (b % 16) :: hexEncode t := by
  simp [hexEncode]

theorem foldlM_hexEncode : ∀ (l : List Nat) (acc : Nat), (∀ b ∈ l, b < 256) →
    List.foldlM (fun acc c => (hexVal c).map (fun d => 16 * acc + d)) acc (hexEncode l) =
      some (l.foldl (fun a b => 256 * a + b) acc)
  | [], _, _ => rfl
  | b :: t, acc, hb => by
    have hblt : b < 256 := hb b (by simp)
    rw [hexEncode_cons, List.foldlM_cons, hexVal_hexDigitChar (by omega : b / 16 < 16),
      Option.map_some', bind_some_eq, List.foldlM_cons,
      hexVal_hexDigitChar (by omega : b % 16 < 16), Option.map_some', bind_some_eq,
      show 16 * (16 * acc + b / 16) + b % 16 = 256 * acc + b by omega,
      foldlM_hexEncode t (256 * acc + b) (fun x hx => hb x (by simp [hx])),
      List.foldl_cons]

theorem hexEncode_ne_nil {l : List Nat} (h : l ≠ []) : (hexEncode l).isEmpty = false := by
  cases l with
  | nil => exact absurd rfl h
  | cons b t => rw [hexEncode_cons]; rfl

theorem parseHexNat_hexEncode {l : List Nat} (hne : l ≠ []) (hb : ∀ b ∈ l, b < 256) :
    parseHexNat (hexEncode l) = some (beWord l) := by
  rw [parseHexNat, hexEncode_ne_nil hne]
  simp only [Bool.false_eq_true, if_false]
  exact foldlM_hexEncode l 0 hb

theorem hexEncode_drop : ∀ (bs : List Nat) (k : Nat),
    (hexEncode bs).drop (2 * k) = hexEncode (bs.drop k)
  | _, 0 => by simp
  | [], _ + 1 => by simp [hexEncode]
  | b :: t, k + 1 => by
    rw [hexEncode_cons, show 2 * (k + 1) = 2 * k + 1 + 1 by ring, List.drop_succ_cons,
      List.drop_succ_cons, hexEncode_drop t k, List.drop_succ_cons]

theorem hexEncode_take : ∀ (bs : List Nat) (k : Nat),
    (hexEncode bs).take (2 * k) = hexEncode (bs.take k)
  | _, 0 => by simp [hexEncode]
  | [], _ + 1 => by simp [hexEncode]
  | b :: t, k + 1 => by
    rw [hexEncode_cons, show 2 * (k + 1) = 2 * k + 1 + 1 by ring, List.take_succ_cons,
      List.take_succ_cons, hexEncode_take t k, List.take_succ_cons, hexEncode_cons]

theorem foldl_be_lt : ∀ (l : List Nat) (acc : Nat), (∀ b ∈ l, b < 256) →
    l.foldl (fun a b => 256 * a + b) acc < (acc + 1) * 256 ^ l.length
  | [], acc, _ => by simp
  | b :: t, acc, hb => by
    have h1 := foldl_be_lt t (256 * acc + b) (fun x hx => hb x (by simp [hx]))
    have h2 : 256 * acc + b + 1 ≤ (acc + 1) * 256 := by
      have := hb b (by simp)
      omega
    simp only [List.foldl_cons, List.length_cons]
    calc t.foldl (fun a b => 256 * a + b) (256 * acc + b)
        < (256 * acc + b + 1) * 256 ^ t.length := h1
      _ ≤ ((acc + 1) * 256) * 256 ^ t.length := Nat.mul_le_mul_right _ h2
      _ = (acc + 1) * 256 ^ (t.length + 1) := by ring

theorem beWord_lt {l : List Nat} (hb : ∀ b ∈ l, b < 256) : beWord l < 256 ^ l.length := by
  have := foldl_be_lt l 0 hb
  simpa [beWord] using this

theorem fold_words_lt : ∀ (ws : List Nat) (acc : Nat), (∀ w ∈ ws, w < 2 ^ 32) →
    ws.foldl (fun r w => r * 2 ^ 32 + w) acc < (acc + 1) * 2 ^ (32 * ws.length)
  | [], acc, _ => by simp
  | w :: t, acc, hw => by
    have h1 := fold_words_lt t (acc * 2 ^ 32 + w) (fun x hx => hw x (by simp [hx]))
    have h2 : acc * 2 ^ 32 + w + 1 ≤ (acc + 1) * 2 ^ 32 := by
      have := hw w (by simp)
      omega
    simp only [List.foldl_cons, List.length_cons]
    calc t.foldl (fun r w => r * 2 ^ 32 + w) (acc * 2 ^ 32 + w)
        < (acc * 2 ^ 32 + w + 1) * 2 ^ (32 * t.length) := h1
      _ ≤ ((acc + 1) * 2 ^ 32) * 2 ^ (32 * t.length) := Nat.mul_le_mul_right _ h2
      _ = (acc + 1) * 2 ^ (32 * (t.length + 1)) := by ring

theorem digestWords_lt {bs : List Nat} (hb : ∀ b ∈ bs, b < 256) :
    ∀ w ∈ digestWordsBE bs, w < 2 ^ 32 := by
  intro w hw
  simp only [digestWordsBE, List.mem_map, List.mem_range] at hw
  obtain ⟨i, _, rfl⟩ := hw
  have h1 : ∀ b ∈ (bs.drop (4 * i)).take 4, b < 256 := fun b hb2 =>
    hb b (List.mem_of_mem_drop (List.mem_of_mem_take hb2))
  have h2 := beWord_lt h1
  have h3 : ((bs.drop (4 * i)).take 4).length ≤ 4 := by
    simp [List.length_take]
  calc beWord ((bs.drop (4 * i)).take 4)
      < 256 ^ ((bs.drop (4 * i)).take 4).length := h2
    _ ≤ 256 ^ 4 := Nat.pow_le_pow_right (by omega) h3
    _ = 2 ^ 32 := by norm_num

theorem packVerificationId_lt {ws : List Nat} (hw : ∀ w ∈ ws, w < 2 ^ 32) :
    packVerificationId ws < 2 ^ 224 := by
  rw [packVerificationId]
  have h1 := fold_words_lt (ws.take 7) 0 (fun w hmem => hw w (List.mem_of_mem_take hmem))
  have h2 : (ws.take 7).length ≤ 7 := by
    simp [List.length_take]
  calc (ws.take 7).foldl (fun r w => r * 2 ^ 32 + w) 0
      < (0 + 1) * 2 ^ (32 * (ws.take 7).length) := h1
    _ = 2 ^ (32 * (ws.take 7).length) := by ring
    _ ≤ 2 ^ 224 := Nat.pow_le_pow_right (by omega) (by omega)

theorem take4_ne_nil {bs : List Nat} {i : Nat} (hlen : bs.length = 32) (hi : i < 8) :
    (bs.drop (4 * i)).take 4 ≠ [] := by
  have h : ((bs.drop (4 * i)).take 4).length = 4 := by
    simp only [List.length_take, List.length_drop, hlen]
    omega
  intro hnil
  rw [hnil] at h
  simp at h

theorem mapM_chunks (internal : List Nat) (hlen : internal.length = 32)
    (hb : ∀ b ∈ internal, b < 256) :
    (List.range 8).mapM
      (fun i => parseHexNat (((hexEncode internal).drop (8 * i)).take 8)) =
      some (digestWordsBE internal) := by
  have hparse : ∀ i, i < 8 → parseHexNat (((hexEncode internal).drop (8 * i)).take 8) =
      some (beWord ((internal.drop (4 * i)).take 4)) := by
    intro i hi
    rw [show 8 * i = 2 * (4 * i) by ring, hexEncode_drop,
      show (8 : Nat) = 2 * 4 from rfl, hexEncode_take]
    exact parseHexNat_hexEncode (take4_ne_nil hlen hi)
      (fun b hb2 => hb b (List.mem_of_mem_drop (List.mem_of_mem_take hb2)))
  rw [show List.range 8 = [0, 1, 2, 3, 4, 5, 6, 7] from rfl]
  simp only [List.mapM_cons, List.mapM_nil]
  rw [hparse 0 (by omega), hparse 1 (by omega), hparse 2 (by omega), hparse 3 (by omega),
    hparse 4 (by omega), hparse 5 (by omega), hparse 6 (by omega), hparse 7 (by omega)]
  simp [digestWordsBE, List.range_succ]

theorem hexRep_length_le (n : Nat) : ∀ k : Nat, n < 16 ^ k → 1 ≤ k →
    (hexRep n).length ≤ k := by
  intro k hk h1
  by_cases h : n < 16
  · rw [hexRep, dif_pos h]
    simpa using h1
  · rw [hexRep, dif_neg h]
    have hk2 : 2 ≤ k := by
      rcases Nat.lt_or_ge k 2 with hlt | hge
      · interval_cases k <;> omega
      · exact hge
    have hdiv : n / 16 < 16 ^ (k - 1) := by
      rw [Nat.div_lt_iff_lt_mul (by omega)]
      calc n < 16 ^ k := hk
        _ = 16 ^ (k - 1) * 16 := by
          rw [← Nat.pow_succ]
          congr 1
          omega
    have ih := hexRep_length_le (n / 16) (k - 1) hdiv (by omega)
    simp only [List.length_append, List.length_cons, List.length_nil]
    omega
termination_by n
decreasing_by exact Nat.div_lt_self (by omega) (by omega)

theorem pad56_length {digits : List Char} (h : digits.length ≤ 56) :
    (pad56 digits).length = 56 := by
  simp only [pad56, List.length_append, List.length_replicate]
  omega

/-- C9: Verification identifier packing.  For every well-formed
64-hex-character display-form block hash, the computed verification id is
the left-to-right fold `result * 2^32 + word` over the first seven
big-endian 32-bit words of the internal-form bytes (word 8 discarded), the
value is below 2^224, and the formatted output is that value zero-padded to
exactly 56 hex digits after the 0x prefix. -/
theorem verification_id_packing (s : List Char) (hlen : s.length = 64)
    (hhex : ∀ c ∈ s, c ∈ hexDigits) :
    ∃ bs, hexDecode s = some bs ∧
      compute_verification_id_from_block_hash s =
        some (packVerificationId (digestWordsBE bs.reverse)) ∧
      packVerificationId (digestWordsBE bs.reverse) < 2 ^ 224 ∧
      compute_verification_id s =
        some (['0', 'x'] ++ pad56 (hexRep (packVerificationId (digestWordsBE bs.reverse)))) ∧
      (pad56 (hexRep (packVerificationId (digestWordsBE bs.reverse)))).length = 56 := by
  obtain ⟨bs, hdec, henc, hblen, hbnd⟩ := hexDecode_hexEncode s hhex (by omega)
  have hrevlen : bs.reverse.length = 32 := by
    simp only [List.length_reverse, hblen, hlen]
  have hrevb : ∀ b ∈ bs.reverse, b < 256 := fun b hb2 => hbnd b (List.mem_reverse.mp hb2)
  have hwords := digestWords_lt hrevb
  have hlt := packVerificationId_lt hwords
  have hcvid : compute_verification_id_from_block_hash s =
      some (packVerificationId (digestWordsBE bs.reverse)) := by
    rw [compute_verification_id_from_block_hash, strip0x_of_no_x s (no_x_of_hex hhex), hdec,
      bind_some_eq]
    show (do
      let u32_array ← (List.range 8).mapM
        (fun i => parseHexNat (((hexEncode bs.reverse).drop (8 * i)).take 8))
      pure ((u32_array.take 7).foldl (fun r w => r * 0x100000000 + w) 0) : Option Nat) =
      some (packVerificationId (digestWordsBE bs.reverse))
    rw [mapM_chunks bs.reverse hrevlen hrevb, bind_some_eq, packVerificationId,
      show (0x100000000 : Nat) = 2 ^ 32 by norm_num]
    rfl
  have hlen56 : (pad56 (hexRep (packVerificationId (digestWordsBE bs.reverse)))).length = 56 := by
    apply pad56_length
    exact hexRep_length_le _ 56 (by calc packVerificationId (digestWordsBE bs.reverse)
        < 2 ^ 224 := hlt
      _ = 16 ^ 56 := by norm_num) (by omega)
  refine ⟨bs, hdec, hcvid, hlt, ?_, hlen56⟩
  rw [compute_verification_id, hcvid]
  rfl

set_option maxRecDepth 40000 in
/-- Witness for C9: the 64-character all-zero digest string. -/
theorem verification_id_packing_witness :
    (List.replicate 64 '0').length = 64 ∧
    (∀ c ∈ List.replicate 64 '0', c ∈ hexDigits) ∧
    (∃ bs, hexDecode (List.replicate 64 '0') = some bs ∧
      compute_verification_id_from_block_hash (List.replicate 64 '0') =
        some (packVerificationId (digestWordsBE bs.reverse)) ∧
      packVerificationId (digestWordsBE bs.reverse) < 2 ^ 224 ∧
      compute_verification_id (List.replicate 64 '0') =
        some (['0', 'x'] ++ pad56 (hexRep (packVerificationId (digestWordsBE bs.reverse)))) ∧
      (pad56 (hexRep (packVerificationId (digestWordsBE bs.reverse)))).length = 56) :=
  ⟨by decide, by decide,
   verification_id_packing (List.replicate 64 '0') (by decide) (by decide)⟩

/-- Witness for C10: three 32-byte leaves, index 2. -/
theorem merkle_branch_equivalence_witness :
    ([List.replicate 32 5, List.replicate 32 6, List.replicate 32 7] : List (List Nat)) ≠ [] ∧
    2 < ([List.replicate 32 5, List.replicate 32 6, List.replicate 32 7] : List (List Nat)).length ∧
    ((gbt_get_merkle_proof [List.replicate 32 5, List.replicate 32 6, List.replicate 32 7] 2).2 =
      (get_merkle_proof [List.replicate 32 5, List.replicate 32 6, List.replicate 32 7] 2).2 ∧
    (gbt_get_merkle_proof [List.replicate 32 5, List.replicate 32 6, List.replicate 32 7] 2).1 =
      (get_merkle_proof [List.replicate 32 5, List.replicate 32 6,
        List.replicate 32 7] 2).1.map (fun b => hexEncode b.reverse)) :=
  ⟨by decide, by decide,
   merkle_branch_equivalence [List.replicate 32 5, List.replicate 32 6, List.replicate 32 7] 2
     (by decide) (by decide)⟩

end ZcashRelay
